import Mathlib

/-!
Verification of the scored path store of the `zrs` utility.

The development shallowly embeds the core of `src/main.rs` and `src/store.rs`:

* the record codec (`to_row` in `store.rs`), working on lines of bytes;
* the write-back filter of `update_file` (`store.rs`), which decides which
  rows are written to the replacement file;
* the `do_add` mutation ("record a visit") and the `--clean` mutation
  ("prune stale entries") of `main.rs`;
* the scoring engine (`Scorer::scored`, `frecent`, `time_delta`);
* the two-pass regex filter of `search`;
* the common-prefix boost (`common_prefix` and the boost application).

Modelling conventions, used throughout:

* Byte strings (Rust `&[u8]`, the bytes of `OsStr` / `PathBuf` / `str`)
  are `List Nat`, each element a byte value below 256.
* Rust `f32` values are modelled as exact rationals `ℚ`.  The arithmetic
  the program performs on ranks and scores (`+ 1.0`, `* 0.99`, `* 4.0`,
  `* 2.0`, `/ 2.0`, `/ 4.0`, `* 100.0`) is modelled exactly; `f32`
  literals are read at face value.  Finiteness of an `f32` result is
  modelled by comparing the exact value against the largest finite `f32`
  (`f32Max` below): for the multiplications by powers of two that the
  program performs on representable inputs, the rounded `f32` result is
  finite exactly when the exact result has magnitude at most `f32Max`.
* Rust `u64` values are `ℕ` together with explicit `< 2 ^ 64` bounds where
  they matter (`str::parse::<u64>` rejects larger numerals).
* `u64::saturating_sub` is `ℕ` subtraction, which is itself truncated.
-/

/-- One persisted entry of the store: `Row` of `store.rs`.  `path` holds the
bytes of the `PathBuf`, `rank` the exact value of the `f32` rank, `time` the
`u64` Unix timestamp. -/
structure Row where
  path : List Nat
  rank : ℚ
  time : ℕ
deriving DecidableEq, Repr

/-- Rust `str::split(c)` / byte-level splitting: splits a byte string at every
occurrence of the delimiter; always returns at least one (possibly empty)
field, and `n` delimiters yield `n + 1` fields. -/
def splitByte (c : Nat) : List Nat → List (List Nat)
  | [] => [[]]
  | b :: rest =>
    if b = c then [] :: splitByte c rest
    else
      match splitByte c rest with
      | s :: ss => (b :: s) :: ss
      | [] => [[b]]

/-- ASCII decimal digit test, `'0' ≤ b ≤ '9'`. -/
def isDigitByte (b : Nat) : Bool := decide (48 ≤ b ∧ b ≤ 57)

/-- Value of a big-endian list of ASCII digit bytes. -/
def digitsVal (l : List Nat) : ℕ := l.foldl (fun a d => 10 * a + (d - 48)) 0

/-- Rust `str::parse::<u64>`: an optional leading `'+'`, then at least one
ASCII digit, and the value must fit in a `u64`; a leading `'-'` or any other
byte is rejected. -/
def parseNatAscii (l : List Nat) : Option ℕ :=
  let r := if l.head? = some 43 then l.tail else l
  if r ≠ [] ∧ r.all isDigitByte then
    let v := digitsVal r
    if v < 2 ^ 64 then some v else none
  else none

/-- Result class of `str::parse::<f32>`: a finite value (kept exact as a
rational), an infinity, or a NaN. -/
inductive FVal where
  | fin (q : ℚ)
  | inf
  | nan
deriving DecidableEq, Repr

/-- Largest finite `f32`, `(2 - 2 ^ (-23)) * 2 ^ 127`. -/
def f32Max : ℚ := 2 ^ 128 - 2 ^ 104

/-- Classify an exactly computed decimal value the way `f32` rounding does:
round-to-nearest-even overflows to an infinity exactly when the magnitude
reaches `2 ^ 128 - 2 ^ 103` (the midpoint above `f32Max`); anything smaller
rounds to a finite `f32`. -/
def fromFinite (q : ℚ) : FVal :=
  if |q| < 2 ^ 128 - 2 ^ 103 then FVal.fin q else FVal.inf

/-- Mantissa part of the `f32` grammar: `digits`, `digits.digits`, `digits.`
or `.digits` (at least one digit in total), valued exactly. -/
def parseMantVal (l : List Nat) : Option ℚ :=
  match splitByte 46 l with
  | [ip] =>
    if ip ≠ [] ∧ ip.all isDigitByte then some (digitsVal ip : ℚ) else none
  | [ip, fp] =>
    if (ip ≠ [] ∨ fp ≠ []) ∧ ip.all isDigitByte ∧ fp.all isDigitByte then
      some ((digitsVal ip : ℚ) + (digitsVal fp : ℚ) / 10 ^ fp.length)
    else none
  | _ => none

/-- Exponent part of the `f32` grammar (after the `e`): optional sign, then
at least one digit. -/
def parseExpVal (l : List Nat) : Option ℤ :=
  let r := if l.head? = some 43 ∨ l.head? = some 45 then l.tail else l
  if r ≠ [] ∧ r.all isDigitByte then
    some (if l.head? = some 45 then -(digitsVal r : ℤ) else (digitsVal r : ℤ))
  else none

/-- ASCII lower-casing of one byte (`'A'..'Z'` map to `'a'..'z'`). -/
def asciiLower (b : Nat) : Nat := if 65 ≤ b ∧ b ≤ 90 then b + 32 else b

/-- Rust `str::parse::<f32>`: optional sign; then `inf`, `infinity` or `nan`
(case-insensitive), or a mantissa with an optional `e`/`E` exponent.  The
numeric value is computed exactly and classified with `fromFinite`. -/
def parseF32 (l : List Nat) : Option FVal :=
  let r := if l.head? = some 43 ∨ l.head? = some 45 then l.tail else l
  let sgn : ℚ := if l.head? = some 45 then -1 else 1
  let rl := r.map asciiLower
  if rl = [105, 110, 102] ∨ rl = [105, 110, 102, 105, 110, 105, 116, 121] then
    some FVal.inf
  else if rl = [110, 97, 110] then some FVal.nan
  else
    let m := r.takeWhile fun b => decide (b ≠ 101 ∧ b ≠ 69)
    match r.dropWhile fun b => decide (b ≠ 101 ∧ b ≠ 69) with
    | [] => (parseMantVal m).map fun q => fromFinite (sgn * q)
    | _ :: ex =>
      match parseMantVal m, parseExpVal ex with
      | some q, some e => some (fromFinite (sgn * q * (10 : ℚ) ^ e))
      | _, _ => none

/-- The record codec's decoder, `to_row` of `store.rs`: split the line on
`'|'`, require a path, a rank and a time field (extra fields are ignored),
parse the rank as an `f32` and the time as a `u64`, and finally insist that
the rank is finite. -/
def to_row (line : List Nat) : Option Row :=
  match splitByte 124 line with
  | p0 :: p1 :: p2 :: _ =>
    match parseF32 p1 with
    | none => none
    | some fv =>
      match parseNatAscii p2 with
      | none => none
      | some t =>
        match fv with
        | FVal.fin q => some ⟨p0, q, t⟩
        | _ => none
  | _ => none

/-- Little-endian ASCII digits of `n`, written with explicit fuel so that the
definition is structural (any fuel of at least `n` gives the digits of `n`). -/
def digitsLoop : ℕ → ℕ → List Nat
  | 0, _ => []
  | _ + 1, 0 => []
  | f + 1, n + 1 => ((n + 1) % 10 + 48) :: digitsLoop f ((n + 1) / 10)

/-- Decimal rendering of a `u64` (Rust `Display` for integers). -/
def fmtNat (n : ℕ) : List Nat :=
  if n = 0 then [48] else (digitsLoop n n).reverse

/-- Exactly 149 fractional decimal digits of `m / 10 ^ 149`, zero-padded on
the left; used to print the exact decimal expansion of an `f32` value. -/
def fracDigitsPadded (m : ℕ) : List Nat :=
  let ds := (digitsLoop m m).reverse
  List.replicate (149 - ds.length) 48 ++ ds

/-- Decimal rendering of an `f32` rank value (Rust `Display` for `f32`).
Rust prints the shortest decimal string that parses back to the same value;
the model prints the exact decimal expansion instead, which equally parses
back to the same value.  Every finite `f32` is `n / 2 ^ 149` for an integer
`n`, hence has an exact expansion with 149 fractional digits. -/
def fmtRank (q : ℚ) : List Nat :=
  let a : ℕ := ((q * 2 ^ 149).num * 5 ^ 149).natAbs
  (if q < 0 then [45] else []) ++
    fmtNat (a / 10 ^ 149) ++ 46 :: fracDigitsPadded (a % 10 ^ 149)

/-- One written line of the update protocol, `"{}|{}|{}"` in `update_file`
of `store.rs` (without the trailing newline). -/
def encodeLine (r : Row) : List Nat :=
  r.path ++ 124 :: (fmtRank r.rank ++ 124 :: fmtNat r.time)

/-- UTF-8 continuation byte test, `0x80 ≤ b ≤ 0xBF`. -/
def isCont (b : Nat) : Bool := decide (128 ≤ b ∧ b ≤ 191)

/-- UTF-8 validity of a byte string (the property deciding whether
`OsStr::to_str` succeeds), written with explicit fuel so that the definition
is structural; `isValidUtf8` instantiates the fuel with the length. -/
def isValidUtf8Fuel : ℕ → List Nat → Bool
  | 0, l => l.isEmpty
  | _ + 1, [] => true
  | f + 1, b :: rest =>
    if b < 128 then isValidUtf8Fuel f rest
    else if 194 ≤ b ∧ b ≤ 223 then
      match rest with
      | c1 :: r => isCont c1 && isValidUtf8Fuel f r
      | [] => false
    else if b = 224 then
      match rest with
      | c1 :: c2 :: r =>
        decide (160 ≤ c1 ∧ c1 ≤ 191) && isCont c2 && isValidUtf8Fuel f r
      | _ => false
    else if (225 ≤ b ∧ b ≤ 236) ∨ b = 238 ∨ b = 239 then
      match rest with
      | c1 :: c2 :: r => isCont c1 && isCont c2 && isValidUtf8Fuel f r
      | _ => false
    else if b = 237 then
      match rest with
      | c1 :: c2 :: r =>
        decide (128 ≤ c1 ∧ c1 ≤ 159) && isCont c2 && isValidUtf8Fuel f r
      | _ => false
    else if b = 240 then
      match rest with
      | c1 :: c2 :: c3 :: r =>
        decide (144 ≤ c1 ∧ c1 ≤ 191) && isCont c2 && isCont c3 &&
          isValidUtf8Fuel f r
      | _ => false
    else if 241 ≤ b ∧ b ≤ 243 then
      match rest with
      | c1 :: c2 :: c3 :: r =>
        isCont c1 && isCont c2 && isCont c3 && isValidUtf8Fuel f r
      | _ => false
    else if b = 244 then
      match rest with
      | c1 :: c2 :: c3 :: r =>
        decide (128 ≤ c1 ∧ c1 ≤ 143) && isCont c2 && isCont c3 &&
          isValidUtf8Fuel f r
      | _ => false
    else false

/-- UTF-8 validity of a byte string. -/
def isValidUtf8 (l : List Nat) : Bool := isValidUtf8Fuel l.length l

/-- The `to_str` view of a `PathBuf`'s bytes: succeeds (with the same bytes)
exactly when they are valid UTF-8. -/
def pathToStr (p : List Nat) : Option (List Nat) :=
  if isValidUtf8 p then some p else none

/-- The per-row filter of the write-back loop in `update_file` of `store.rs`:
a row is written unless its rank is below 0.98, its path is not valid UTF-8
(`to_str` returns `None`), or its path contains `'|'` or `'\n'`.  Checking
the decoded string for the characters `'|'`/`'\n'` is the same as checking
the bytes for 124/10, since both are ASCII and UTF-8 is ASCII-transparent. -/
def rowKept (r : Row) : Bool :=
  if r.rank < 98 / 100 then false
  else
    match pathToStr r.path with
    | some path => if path.contains 124 || path.contains 10 then false else true
    | none => false

/-- Rows written to the replacement file by `update_file` after running a
mutation: the mutated table filtered by `rowKept`.  The filter runs on every
write, whatever the mutation was, and dropping a row never fails the
update. -/
def writtenTable (mutate : List Row → List Row) (table : List Row) :
    List Row :=
  (mutate table).filter rowKept

/-- Sum of all ranks, `total_rank` of `main.rs`. -/
def total_rank (table : List Row) : ℚ := (table.map fun r => r.rank).sum

/-- The mutation `table.iter_mut().find(|row| row.path == what)` performs in
`do_add`: bump the rank of the first row with the given path by 1 and stamp
its time; leave everything else unchanged. -/
def bumpFirst (now : ℕ) (what : List Nat) : List Row → List Row
  | [] => []
  | r :: rs =>
    if r.path = what then ⟨r.path, r.rank + 1, now⟩ :: rs
    else r :: bumpFirst now what rs

/-- The record-a-visit mutation, `do_add` of `main.rs`: bump the first row
with the given path (or append a fresh row with rank 1), then, if the total
rank exceeds 9000, multiply every rank by 0.99. -/
def do_add (now : ℕ) (table : List Row) (what : List Nat) : List Row :=
  let found := table.any fun r => decide (r.path = what)
  let table' := if found then bumpFirst now what table else table ++ [⟨what, 1, now⟩]
  if total_rank table' > 9000 then
    table'.map fun r => ⟨r.path, r.rank * (99 / 100), r.time⟩
  else table'

/-- The `--clean` mutation of `main.rs`: retain only the rows whose path is
currently a directory.  The `is_dir` filesystem probe is a parameter. -/
def pruneStale (isDir : List Nat → Bool) (table : List Row) : List Row :=
  table.filter fun r => isDir r.path

/-- Claim-side description of record-visit, following the spec's words: find
an entry with exactly this path; if found, increment its rank by 1.0 and
stamp its time; if absent, append a new entry with rank 1.0. -/
def recordVisitSpec (now : ℕ) (table : List Row) (what : List Nat) :
    List Row :=
  if (table.findIdx fun r => decide (r.path = what)) < table.length then
    table.set (table.findIdx fun r => decide (r.path = what))
      ⟨what,
        (table.getD (table.findIdx fun r => decide (r.path = what))
            ⟨[], 0, 0⟩).rank + 1,
        now⟩
  else table ++ [⟨what, 1, now⟩]

/-- Claim-side description of the aging pass, following the spec's words: if
the sum of all ranks exceeds 9000, multiply every entry's rank by exactly
0.99 exactly once; otherwise change no rank. -/
def agingSpec (table : List Row) : List Row :=
  if total_rank table > 9000 then
    table.map fun r => ⟨r.path, r.rank * (99 / 100), r.time⟩
  else table

/-- Saturating subtraction `now.saturating_sub(then)`, `time_delta` of
`main.rs`; on `ℕ` subtraction is itself truncated at zero. -/
def time_delta (now t : ℕ) : ℕ := now - t

/-- The frecency step function, `frecent` of `main.rs`: `HOUR = 3600`,
`DAY = 24 * HOUR = 86400`, `WEEK = 7 * DAY = 604800`. -/
def frecent (rank : ℚ) (dx : ℕ) : ℚ :=
  if dx < 3600 then rank * 4
  else if dx < 86400 then rank * 2
  else if dx < 604800 then rank / 2
  else rank / 4

/-- The three scoring policies of `main.rs` (`Scorer`), with the `now`
timestamp captured by the `Recent`/`Frecent` variants. -/
inductive Scorer where
  | Rank
  | Recent (now : ℕ)
  | Frecent (now : ℕ)

/-- The raw score each policy computes in `Scorer::scored`. -/
def Scorer.scoreOf : Scorer → Row → ℚ
  | Scorer.Rank, row => row.rank
  | Scorer.Recent now, row => -((time_delta now row.time : ℕ) : ℚ)
  | Scorer.Frecent now, row => frecent row.rank (time_delta now row.time)

/-- A transient scored result, `ScoredRow` of `main.rs`; the score is the
exact value of the `f32`. -/
structure ScoredRow where
  path : List Nat
  score : ℚ
deriving DecidableEq, Repr

/-- The checked scorer, `Scorer::scored` of `main.rs`: compute the raw score
and fail (the `ensure!(score.is_finite())` guard) unless the score is a
finite `f32`; finiteness of the exactly-computed value is magnitude at most
`f32Max`, see `fromFinite`. -/
def Scorer.scored (mode : Scorer) (row : Row) : Option ScoredRow :=
  let s := mode.scoreOf row
  if |s| ≤ f32Max then some ⟨row.path, s⟩ else none

/-- Substring containment of byte strings: some tail of `text` starts with
`pat`. -/
def hasInfixB (pat : List Nat) : List Nat → Bool
  | [] => pat.isEmpty
  | b :: rest => pat.isPrefixOf (b :: rest) || hasInfixB pat rest

/-- Substring matching of the compiled pattern against a path, modelling the
`regex` crate's `is_match` for a pattern free of regex metacharacters (the
claims only exercise such patterns): a case-sensitive match is substring
containment, and the case-insensitive flag folds case, here ASCII case since
the claims' inputs are ASCII. -/
def rmatch (ci : Bool) (pat text : List Nat) : Bool :=
  if ci then hasInfixB (pat.map asciiLower) (text.map asciiLower)
  else hasInfixB pat text

/-- The two-pass filter of `search` in `main.rs`: filter the table with the
case-sensitive pattern; if and only if that yields no match, filter the full
table again with the pattern compiled case-insensitively. -/
def searchMatches (pat : List Nat) (table : List Row) : List Row :=
  let m := table.filter fun r => rmatch false pat r.path
  if m.isEmpty then table.filter fun r => rmatch true pat r.path else m

/-- One component of a Rust `Path`: the root directory or a named component
(held as its byte text).  `/home/x` has components
`[rootDir, normal "home", normal "x"]`; a relative path has no `rootDir`. -/
inductive PComp where
  | rootDir
  | normal (s : List Nat)
deriving DecidableEq, Repr

/-- A path as its list of components. -/
abbrev PPath := List PComp

/-- Rust `Path::parent().is_none()`: true exactly for the root path `/` and
the empty path. -/
def parentIsNone : PPath → Bool
  | [] => true
  | [PComp.rootDir] => true
  | _ => false

/-- Rust `PathBuf::pop`: truncate to the parent and report success, or fail
(leaving the path alone) when there is no parent. -/
def popPath (p : PPath) : Option PPath :=
  if parentIsNone p then none else some p.dropLast

/-- The inner `while !part.starts_with(&shortest)` loop of `common_prefix`
in `main.rs`: pop `shortest` until it is a prefix of `part`, failing if a
pop fails or lands on a path with no parent.  Written with explicit fuel so
that the definition is structural; one component is popped per step, so any
fuel of at least `shortest.length` computes the loop. -/
def popLoop : ℕ → PPath → PPath → Option PPath
  | 0, shortest, part => if shortest.isPrefixOf part then some shortest else none
  | f + 1, shortest, part =>
    if shortest.isPrefixOf part then some shortest
    else if parentIsNone shortest then none
    else
      let s := shortest.dropLast
      if parentIsNone s then none else popLoop f s part

/-- The inner loop of `common_prefix`, at its canonical fuel. -/
def popUntil (shortest part : PPath) : Option PPath :=
  popLoop shortest.length shortest part

/-- A scored match as the common-prefix boost sees it: the same `ScoredRow`
of `main.rs`, with the `PathBuf` viewed through its components (the view
`starts_with`, `pop` and `parent` operate on). -/
structure ScoredPath where
  path : PPath
  score : ℚ
deriving DecidableEq, Repr

/-- The fold of `common_prefix`'s outer `for` loop over the remaining rows. -/
def commonGo : PPath → List ScoredPath → Option PPath
  | shortest, [] => some shortest
  | shortest, r :: rs =>
    match popUntil shortest r.path with
    | none => none
    | some s => commonGo s rs

/-- The `common_prefix` function of `main.rs` (the source name carries the
underscore): `None` for fewer than two rows, otherwise walk every further
row with the pop loop starting from the first row's path. -/
def commonPrefixPath (rows : List ScoredPath) : Option PPath :=
  match rows with
  | [] => none
  | [_] => none
  | r :: rest => commonGo r.path rest

/-- Boost the first row whose path equals the computed prefix (the
`scored.iter_mut().find(...)` in `search`), multiplying its score by 100;
if no row matches, nothing changes. -/
def boostFirst (p : PPath) : List ScoredPath → List ScoredPath
  | [] => []
  | r :: rs =>
    if r.path = p then ⟨r.path, r.score * 100⟩ :: rs else r :: boostFirst p rs

/-- The common-prefix boost pass of `search` in `main.rs` (lines 109-116),
acting on the scored matches with their paths viewed as components. -/
def applyBoost (rows : List ScoredPath) : List ScoredPath :=
  match commonPrefixPath rows with
  | none => rows
  | some p => boostFirst p rows

/-- Componentwise longest common prefix of two paths: the deepest common
ancestor of two paths, following the spec's words. -/
def lcp2 : PPath → PPath → PPath
  | [], _ => []
  | _, [] => []
  | a :: xs, b :: ys => if a = b then a :: lcp2 xs ys else []

/-- Deepest common ancestor of the paths of a set of at least two matches,
following the spec's words: the componentwise longest common prefix of all
of them. -/
def dcaOf : List PPath → Option PPath
  | [] => none
  | [_] => none
  | p :: ps => some (ps.foldl lcp2 p)

/-- The paths of a list of scored matches. -/
def matchPaths (rows : List ScoredPath) : List PPath := rows.map fun r => r.path

/-- A path that is short of the filesystem root: neither the root itself nor
the empty path. -/
def shortOfRoot (p : PPath) : Prop := p ≠ [] ∧ p ≠ [PComp.rootDir]
/-- Claim C8 (amended with `0 < rank`): the Frecent scorer is the documented
step function of the age (with age truncated at 0 by `time_delta`), and for a
fixed positive rank the scores at ages 30 minutes, 12 hours, 3 days and
30 days are strictly decreasing. -/
theorem claimC8_frecency (rank : ℚ) :
    (∀ dx : ℕ,
        (dx < 3600 → frecent rank dx = rank * 4)
      ∧ (3600 ≤ dx → dx < 86400 → frecent rank dx = rank * 2)
      ∧ (86400 ≤ dx → dx < 604800 → frecent rank dx = rank / 2)
      ∧ (604800 ≤ dx → frecent rank dx = rank / 4))
  ∧ (∀ now t : ℕ, t ≤ now → time_delta now t + t = now)
  ∧ (∀ now t : ℕ, now ≤ t → time_delta now t = 0)
  ∧ (0 < rank →
        frecent rank (30 * 60) > frecent rank (12 * 3600)
      ∧ frecent rank (12 * 3600) > frecent rank (3 * 86400)
      ∧ frecent rank (3 * 86400) > frecent rank (30 * 86400)) := by
  refine ⟨fun dx => ⟨fun h1 => ?_, fun h1 h2 => ?_, fun h1 h2 => ?_, fun h1 => ?_⟩,
    fun now t h => by simpa [time_delta] using Nat.sub_add_cancel h,
    fun now t h => by simp [time_delta, Nat.sub_eq_zero_of_le h],
    fun hr => ⟨?_, ?_, ?_⟩⟩
  · rw [frecent, if_pos h1]
  · rw [frecent, if_neg (by omega), if_pos h2]
  · rw [frecent, if_neg (by omega), if_neg (by omega), if_pos h2]
  · rw [frecent, if_neg (by omega), if_neg (by omega), if_neg (by omega)]
  · show frecent rank 1800 > frecent rank 43200
    rw [frecent, if_pos (by norm_num), frecent, if_neg (by norm_num), if_pos (by norm_num)]
    linarith
  · show frecent rank 43200 > frecent rank 259200
    rw [frecent, if_neg (by norm_num), if_pos (by norm_num),
      frecent, if_neg (by norm_num), if_neg (by norm_num), if_pos (by norm_num)]
    linarith
  · show frecent rank 259200 > frecent rank 2592000
    rw [frecent, if_neg (by norm_num), if_neg (by norm_num), if_pos (by norm_num),
      frecent, if_neg (by norm_num), if_neg (by norm_num), if_neg (by norm_num)]
    linarith

/-- Witness for C8's theorem at rank 1, age 30 minutes against 12 hours. -/
theorem claimC8_frecency_witness :
    frecent 1 (30 * 60) = 1 * 4 ∧ frecent 1 (30 * 60) > frecent 1 (12 * 3600) :=
  ⟨((claimC8_frecency 1).1 (30 * 60)).1 (by norm_num),
    ((claimC8_frecency 1).2.2.2 (by norm_num)).1⟩

/-- Counterexample to C8 as frozen: at rank 0 the four step values coincide,
so the claimed strict decrease across the ages fails. -/
theorem claimC8_zero_rank_cx :
    frecent 0 (30 * 60) = frecent 0 (12 * 3600)
  ∧ ¬ frecent 0 (30 * 60) > frecent 0 (12 * 3600) := by
  norm_num [frecent]

/-- Claim C2 (amended): whenever the rank has magnitude at most a quarter of
the largest finite `f32` (so that the Frecent multiplication by 4 cannot
overflow), the timestamp is at most `now`, and `now` is a `u64`, all three
scorers succeed, i.e. the non-finite-score guard does not fire. -/
theorem claimC2_finiteness (row : Row) (now : ℕ)
    (hrank : |row.rank| ≤ f32Max / 4) (htime : row.time ≤ now)
    (hnow : now < 2 ^ 64) :
    (Scorer.Rank.scored row).isSome
  ∧ ((Scorer.Recent now).scored row).isSome
  ∧ ((Scorer.Frecent now).scored row).isSome := by
  have hmaxpos : (0 : ℚ) ≤ f32Max := by norm_num [f32Max]
  refine ⟨?_, ?_, ?_⟩
  · rw [Scorer.scored, if_pos ?_]
    · rfl
    · show |Scorer.scoreOf Scorer.Rank row| ≤ f32Max
      rw [Scorer.scoreOf]
      linarith
  · rw [Scorer.scored, if_pos ?_]
    · rfl
    · show |Scorer.scoreOf (Scorer.Recent now) row| ≤ f32Max
      rw [Scorer.scoreOf, abs_neg, abs_of_nonneg (by positivity)]
      have h1 : time_delta now row.time ≤ now := Nat.sub_le _ _
      have h2 : ((time_delta now row.time : ℕ) : ℚ) ≤ (2 ^ 64 : ℕ) := by
        exact_mod_cast le_trans h1 (le_of_lt hnow)
      have h3 : ((2 ^ 64 : ℕ) : ℚ) ≤ f32Max := by norm_num [f32Max]
      linarith
  · rw [Scorer.scored, if_pos ?_]
    · rfl
    · show |Scorer.scoreOf (Scorer.Frecent now) row| ≤ f32Max
      rw [Scorer.scoreOf, frecent]
      have h4 : |row.rank * 4| = |row.rank| * 4 := by
        rw [abs_mul]; norm_num
      have h2' : |row.rank * 2| = |row.rank| * 2 := by
        rw [abs_mul]; norm_num
      have hd2 : |row.rank / 2| = |row.rank| / 2 := by
        rw [abs_div]; norm_num
      have hd4 : |row.rank / 4| = |row.rank| / 4 := by
        rw [abs_div]; norm_num
      split
      · rw [h4]; rw [f32Max] at hrank ⊢; linarith
      · split
        · rw [h2']; rw [f32Max] at hrank ⊢; linarith
        · split
          · rw [hd2]; rw [f32Max] at hrank ⊢; linarith
          · rw [hd4]; rw [f32Max] at hrank ⊢; linarith

/-- Witness for C2's amended theorem at a concrete row. -/
theorem claimC2_finiteness_witness :
    ((Scorer.Frecent 5).scored ⟨[97], 1, 3⟩).isSome :=
  (claimC2_finiteness ⟨[97], 1, 3⟩ 5
    (by rw [show |(1 : ℚ)| = 1 from abs_one]; norm_num [f32Max])
    (by norm_num) (by norm_num)).2.2

/-- Counterexample to C2 as frozen: the rank `f32Max` is a finite `f32` and
its timestamp 0 is at most `now = 0`, yet the Frecent scorer multiplies it
by 4, the result overflows every finite `f32`, and the non-finite-score
guard fires (`scored` fails). -/
theorem claimC2_overflow_cx :
    |f32Max| ≤ f32Max ∧ (0 : ℕ) ≤ 0
  ∧ (Scorer.Frecent 0).scored ⟨[], f32Max, 0⟩ = none := by
  have hpos : (0 : ℚ) ≤ f32Max := by norm_num [f32Max]
  refine ⟨by rw [abs_of_nonneg hpos], le_refl 0, ?_⟩
  rw [Scorer.scored, if_neg]
  show ¬ |Scorer.scoreOf (Scorer.Frecent 0) ⟨[], f32Max, 0⟩| ≤ f32Max
  rw [Scorer.scoreOf]
  show ¬ |frecent f32Max (time_delta 0 0)| ≤ f32Max
  rw [show time_delta 0 0 = 0 from rfl, frecent, if_pos (by norm_num),
    abs_of_nonneg (by positivity), f32Max]
  norm_num

/-- Claim C9: the search filter runs the case-sensitive pattern first and
falls back to a case-insensitive pass over the full table exactly when the
first pass matched nothing; on the claim's example, the pattern `HOME`
against the single lowercase path `/home/x` matches nothing case-sensitively
and exactly that row case-insensitively. -/
theorem claimC9_two_pass :
    (∀ (pat : List Nat) (table : List Row),
        (table.filter fun r => rmatch false pat r.path) ≠ [] →
        searchMatches pat table = table.filter fun r => rmatch false pat r.path)
  ∧ (∀ (pat : List Nat) (table : List Row),
        (table.filter fun r => rmatch false pat r.path) = [] →
        searchMatches pat table = table.filter fun r => rmatch true pat r.path)
  ∧ (List.filter (fun r => rmatch false [72, 79, 77, 69] r.path)
        [(⟨[47, 104, 111, 109, 101, 47, 120], 1, 0⟩ : Row)] = []
      ∧ searchMatches [72, 79, 77, 69] [⟨[47, 104, 111, 109, 101, 47, 120], 1, 0⟩]
        = [⟨[47, 104, 111, 109, 101, 47, 120], 1, 0⟩]) := by
  refine ⟨fun pat table h => ?_, fun pat table h => ?_, ?_, ?_⟩
  · rw [searchMatches, if_neg]
    simpa [List.isEmpty_iff] using h
  · rw [searchMatches, if_pos]
    simpa [List.isEmpty_iff] using h
  · decide
  · decide

/-- Witness for C9's theorem: the case-sensitive branch at a matching
concrete table. -/
theorem claimC9_two_pass_witness :
    searchMatches [97] [(⟨[97], 1, 0⟩ : Row)]
      = List.filter (fun r => rmatch false [97] r.path) [(⟨[97], 1, 0⟩ : Row)] :=
  claimC9_two_pass.1 [97] [⟨[97], 1, 0⟩] (by decide)

/-- Claim C5 (amended with UTF-8 validity): a row of the mutated table is
written back if and only if its rank is not below 0.98, its path is valid
UTF-8, and its path contains neither the `'|'` delimiter byte nor a newline
byte; the filter applies on every write, whatever mutation ran, and dropping
rows does not fail the update. -/
theorem claimC5_write_filter :
    (∀ (mutate : List Row → List Row) (table : List Row) (r : Row),
        r ∈ writtenTable mutate table ↔ r ∈ mutate table ∧ rowKept r = true)
  ∧ (∀ r : Row, rowKept r = true ↔
        (¬ r.rank < 98 / 100 ∧ isValidUtf8 r.path = true
          ∧ r.path.contains 124 = false ∧ r.path.contains 10 = false)) := by
  constructor
  · intro mutate table r
    simp [writtenTable, List.mem_filter]
  · intro r
    by_cases h1 : r.rank < 98 / 100
    · simp [rowKept, h1]
    · by_cases h2 : isValidUtf8 r.path = true
      · by_cases h3 : (r.path.contains 124 || r.path.contains 10) = true
        · simp only [rowKept, pathToStr, h1, h2, if_neg h1, if_true, if_pos h3]
          simp only [Bool.or_eq_true] at h3
          constructor
          · intro hfalse
            exact absurd hfalse (by simp)
          · rintro ⟨-, -, hc124, hc10⟩
            rcases h3 with h3 | h3
            · rw [hc124] at h3; exact absurd h3 (by simp)
            · rw [hc10] at h3; exact absurd h3 (by simp)
        · simp only [rowKept, pathToStr, h2, if_true, if_neg h1, if_neg h3]
          simp only [Bool.or_eq_true, not_or, Bool.not_eq_true] at h3
          simp [h1, h2, h3.1, h3.2]
          exact ⟨by simpa using h3.1, by simpa using h3.2⟩
      · simp only [Bool.not_eq_true] at h2
        simp [rowKept, pathToStr, h1, h2]

/-- A row whose path is not valid UTF-8 never passes the write-back filter
(the `to_str` of its path returns `None` and the writer skips it). -/
theorem rowKept_false_of_invalid (r : Row) (hbad : isValidUtf8 r.path = false) :
    rowKept r = false := by
  simp [rowKept, pathToStr, hbad]

/-- Counterexample to C5 as frozen: the row with path byte `0xFF` (not valid
UTF-8) has rank 1 at least 0.98 and its path contains neither `'|'` nor a
newline, so the claim says it is written; the update drops it. -/
theorem claimC5_nonutf8_cx :
    ¬ (⟨[255], 1, 0⟩ : Row).rank < 98 / 100
  ∧ (⟨[255], 1, 0⟩ : Row).path.contains 124 = false
  ∧ (⟨[255], 1, 0⟩ : Row).path.contains 10 = false
  ∧ (⟨[255], 1, 0⟩ : Row) ∉ writtenTable id [⟨[255], 1, 0⟩] := by
  refine ⟨by norm_num, by decide, by decide, ?_⟩
  intro hc
  rw [writtenTable, List.mem_filter] at hc
  rw [rowKept_false_of_invalid ⟨[255], 1, 0⟩ (by decide)] at hc
  exact absurd hc.2 (by simp)

/-- Claim C10: during write-back, any entry whose path is not valid UTF-8 is
dropped from the written file, whatever the mutation was, and the update
still succeeds (the writer merely skips the row). -/
theorem claimC10_nonutf8_dropped
    (mutate : List Row → List Row) (table : List Row) (r : Row)
    (hmem : r ∈ mutate table) (hbad : isValidUtf8 r.path = false) :
    r ∉ writtenTable mutate table := by
  intro hc
  rw [writtenTable, List.mem_filter] at hc
  rw [rowKept_false_of_invalid r hbad] at hc
  exact absurd hc.2 (by simp)

/-- Witness for C10 at a concrete row with an invalid byte. -/
theorem claimC10_nonutf8_dropped_witness :
    (⟨[200], 1, 5⟩ : Row) ∉ writtenTable id [⟨[200], 1, 5⟩] :=
  claimC10_nonutf8_dropped id [⟨[200], 1, 5⟩] ⟨[200], 1, 5⟩ (by simp)
    (by decide)

/-- The predicate `any` succeeds on a list exactly when `findIdx` finds an
index inside the list. -/
theorem any_iff_findIdx_lt {α : Type} (p : α → Bool) :
    ∀ l : List α, l.any p = true ↔ l.findIdx p < l.length := by
  intro l
  induction l with
  | nil => simp
  | cons a l ih =>
    by_cases h : p a
    · simp [List.findIdx_cons, h]
    · simp only [List.any_cons, List.findIdx_cons, h, Bool.false_or,
        cond_false, List.length_cons, Nat.add_lt_add_iff_right]
      exact ih

/-- The branch of `do_add` before the aging pass agrees with the spec-worded
`recordVisitSpec`. -/
theorem preAdd_eq (now : ℕ) (what : List Nat) :
    ∀ table : List Row,
      (if table.any (fun r => decide (r.path = what)) then bumpFirst now what table
       else table ++ [⟨what, 1, now⟩]) = recordVisitSpec now table what := by
  intro table
  induction table with
  | nil => simp [recordVisitSpec, bumpFirst]
  | cons r rs ih =>
    by_cases h : r.path = what
    · have hidx : (r :: rs).findIdx (fun r => decide (r.path = what)) = 0 := by
        simp [List.findIdx_cons, h]
      simp [recordVisitSpec, hidx, h, bumpFirst, List.any_cons]
    · have hidx : (r :: rs).findIdx (fun r => decide (r.path = what))
          = rs.findIdx (fun r => decide (r.path = what)) + 1 := by
        simp [List.findIdx_cons, h]
      by_cases hany : rs.any (fun r => decide (r.path = what)) = true
      · have hlt : rs.findIdx (fun r => decide (r.path = what)) < rs.length :=
          (any_iff_findIdx_lt _ rs).mp hany
        have hlt' : (r :: rs).findIdx (fun r => decide (r.path = what))
            < (r :: rs).length := by
          rw [hidx, List.length_cons]
          exact Nat.succ_lt_succ hlt
        rw [if_pos hany] at ih
        rw [if_pos (by simp [List.any_cons, h, hany]), bumpFirst, if_neg h, ih]
        simp only [recordVisitSpec]
        rw [if_pos hlt', if_pos hlt, hidx]
        simp
      · have hge : ¬ rs.findIdx (fun r => decide (r.path = what)) < rs.length :=
          fun hc => hany ((any_iff_findIdx_lt _ rs).mpr hc)
        have hanyc : ((r :: rs).any fun r => decide (r.path = what)) = false := by
          simp only [List.any_cons, Bool.or_eq_false_iff]
          exact ⟨by simp [h], by simpa using hany⟩
        have hgec : ¬ (r :: rs).findIdx (fun r => decide (r.path = what))
            < (r :: rs).length := by
          rw [hidx, List.length_cons]
          exact fun hc => hge (Nat.lt_of_succ_lt_succ hc)
        rw [if_neg (by simp [hanyc]), recordVisitSpec, if_neg hgec]

/-- Claim C1: `do_add` is exactly the spec-worded record-visit followed by
the spec-worded aging pass — find the entry with exactly this path and bump
its rank by 1.0 and its time to now (or append a fresh rank-1 entry), then
multiply every rank by exactly 0.99 exactly once when the total rank exceeds
9000, and change no rank otherwise. -/
theorem claimC1_record_visit (now : ℕ) (table : List Row) (what : List Nat) :
    do_add now table what = agingSpec (recordVisitSpec now table what) := by
  simp only [do_add, agingSpec]
  rw [preAdd_eq]

/-- The rank-and-time bump of `do_add` keeps every path unchanged. -/
theorem bumpFirst_map_path (now : ℕ) (what : List Nat) :
    ∀ table : List Row,
      (bumpFirst now what table).map (fun r => r.path)
        = table.map fun r => r.path := by
  intro table
  induction table with
  | nil => rfl
  | cons r rs ih => by_cases h : r.path = what <;> simp [bumpFirst, h, ih]

/-- The paths of the table `do_add` produces: unchanged when the path was
already present, extended by the new path otherwise. -/
theorem do_add_map_path (now : ℕ) (table : List Row) (what : List Nat) :
    (do_add now table what).map (fun r => r.path)
      = if table.any (fun r => decide (r.path = what)) then
          table.map fun r => r.path
        else (table.map fun r => r.path) ++ [what] := by
  simp only [do_add]
  by_cases hany : (table.any fun r => decide (r.path = what)) = true
  · rw [if_pos hany, if_pos hany]
    split
    · rw [List.map_map]
      exact bumpFirst_map_path now what table
    · exact bumpFirst_map_path now what table
  · rw [if_neg hany, if_neg hany]
    split
    · rw [List.map_map]
      simp
    · simp

/-- Claim C4 (amended to preservation): if no two entries of the starting
table share a path, then after either mutation — record-visit (`do_add`) or
prune-stale (`pruneStale`) — still no two entries share a path. -/
theorem claimC4_unique_preserved (now : ℕ) (what : List Nat)
    (isDir : List Nat → Bool) (table : List Row)
    (h : table.Pairwise fun a b => a.path ≠ b.path) :
    ((do_add now table what).Pairwise fun a b => a.path ≠ b.path)
  ∧ ((pruneStale isDir table).Pairwise fun a b => a.path ≠ b.path) := by
  constructor
  · have hmapped : ((do_add now table what).map fun r => r.path).Pairwise (· ≠ ·) := by
      rw [do_add_map_path]
      by_cases hany : (table.any fun r => decide (r.path = what)) = true
      · rw [if_pos hany]
        exact (List.pairwise_map).mpr h
      · rw [if_neg hany]
        rw [List.pairwise_append]
        refine ⟨(List.pairwise_map).mpr h, List.pairwise_singleton _ _, ?_⟩
        intro x hx y hy
        rw [List.mem_singleton] at hy
        subst hy
        rw [List.mem_map] at hx
        obtain ⟨r, hr, rfl⟩ := hx
        intro hc
        apply hany
        rw [List.any_eq_true]
        exact ⟨r, hr, by simpa using hc⟩
    exact (List.pairwise_map).mp hmapped
  · exact List.Pairwise.sublist (List.filter_sublist _) h

/-- Witness for C4's amended theorem at a concrete duplicate-free table. -/
theorem claimC4_unique_preserved_witness :
    ((do_add 0 [⟨[97], 1, 0⟩] [98]).Pairwise fun a b : Row => a.path ≠ b.path) :=
  (claimC4_unique_preserved 0 [98] (fun _ => true) [⟨[97], 1, 0⟩]
    (List.pairwise_singleton _ _)).1

/-- Counterexample to C4 as frozen: the store loader accepts a file whose
lines repeat a path, so a mutation can start from a table with duplicate
paths; `do_add` leaves those duplicates untouched, so after the mutation two
entries still share a path. -/
theorem claimC4_duplicate_cx :
    ¬ ((do_add 0 [⟨[97], 1, 0⟩, ⟨[97], 1, 0⟩] [98]).Pairwise
        fun a b : Row => a.path ≠ b.path) := by
  have heval : do_add 0 [⟨[97], 1, 0⟩, ⟨[97], 1, 0⟩] [98]
      = [⟨[97], 1, 0⟩, ⟨[97], 1, 0⟩, ⟨[98], 1, 0⟩] := by
    have hsum : ¬ total_rank [(⟨[97], 1, 0⟩ : Row), ⟨[97], 1, 0⟩, ⟨[98], 1, 0⟩] > 9000 := by
      norm_num [total_rank]
    simp [do_add, hsum]
  rw [heval]
  intro hc
  rw [List.pairwise_cons] at hc
  exact hc.1 ⟨[97], 1, 0⟩ (by simp) rfl

/-- Claim C6: decoding a line fails exactly when fewer than three `'|'`
fields are present, or the rank field does not parse as a finite `f32` (a
non-finite parse such as `inf` or `nan` is failure, not clamping), or the
time field does not parse as a `u64`; otherwise the decoded row carries the
first field as path, the rank and the time. -/
theorem claimC6_decode (line : List Nat) :
    (to_row line = none ↔
      ((splitByte 124 line).length < 3
        ∨ (¬ ∃ q, parseF32 ((splitByte 124 line).getD 1 []) = some (FVal.fin q))
        ∨ parseNatAscii ((splitByte 124 line).getD 2 []) = none))
  ∧ (∀ p0 p1 p2 rest q t,
      splitByte 124 line = p0 :: p1 :: p2 :: rest →
      parseF32 p1 = some (FVal.fin q) → parseNatAscii p2 = some t →
      to_row line = some ⟨p0, q, t⟩) := by
  constructor
  · rcases hs : splitByte 124 line with _ | ⟨p0, tl⟩
    · simp [to_row, hs]
    · rcases tl with _ | ⟨p1, tl2⟩
      · simp [to_row, hs]
      · rcases tl2 with _ | ⟨p2, rest⟩
        · simp [to_row, hs]
        · rcases hf : parseF32 p1 with _ | fv
          · simp [to_row, hs, hf]
          · rcases ht : parseNatAscii p2 with _ | t
            · cases fv <;> simp [to_row, hs, hf, ht]
            · cases fv <;> simp [to_row, hs, hf, ht]
  · intro p0 p1 p2 rest q t hs hf ht
    simp [to_row, hs, hf, ht]

/-- Witness for C6 on the line `a|1|2`. -/
theorem claimC6_decode_witness :
    to_row [97, 124, 49, 124, 50] = some ⟨[97], 1, 2⟩ := by
  have h1 : parseMantVal [49] = some 1 := by
    simp +decide [parseMantVal, splitByte, digitsVal, isDigitByte]
  have h2 : parseF32 [49] = some (FVal.fin 1) := by
    simp +decide [parseF32, asciiLower, h1, fromFinite]
    norm_num
  exact (claimC6_decode [97, 124, 49, 124, 50]).2 [97] [49] [50] [] 1 2
    (by decide) h2 (by decide)

/-- The componentwise longest common prefix is a prefix of its left
argument. -/
theorem lcp2_prefix_left : ∀ x y : PPath, lcp2 x y <+: x := by
  intro x
  induction x with
  | nil => intro y; simp [lcp2]
  | cons a xs ih =>
    intro y
    cases y with
    | nil => simp [lcp2]
    | cons b ys =>
      rw [lcp2]
      by_cases h : a = b
      · rw [if_pos h]
        exact List.cons_prefix_cons.mpr ⟨rfl, ih ys⟩
      · rw [if_neg h]
        exact List.nil_prefix

/-- The componentwise longest common prefix is a prefix of its right
argument. -/
theorem lcp2_prefix_right : ∀ x y : PPath, lcp2 x y <+: y := by
  intro x
  induction x with
  | nil => intro y; simp [lcp2]
  | cons a xs ih =>
    intro y
    cases y with
    | nil => simp [lcp2]
    | cons b ys =>
      rw [lcp2]
      by_cases h : a = b
      · rw [if_pos h, h]
        exact List.cons_prefix_cons.mpr ⟨rfl, ih ys⟩
      · rw [if_neg h]
        exact List.nil_prefix

/-- Any common prefix of two paths is a prefix of their longest common
prefix. -/
theorem prefix_lcp2 : ∀ (q x y : PPath), q <+: x → q <+: y → q <+: lcp2 x y := by
  intro q
  induction q with
  | nil => intro x y _ _; exact List.nil_prefix
  | cons c qs ih =>
    intro x y hx hy
    cases x with
    | nil => simp [List.prefix_nil] at hx
    | cons a xs =>
      cases y with
      | nil => simp [List.prefix_nil] at hy
      | cons b ys =>
        obtain ⟨rfl, hx'⟩ := List.cons_prefix_cons.mp hx
        obtain ⟨hb, hy'⟩ := List.cons_prefix_cons.mp hy
        rw [lcp2, if_pos hb]
        exact List.cons_prefix_cons.mpr ⟨rfl, ih xs ys hx' hy'⟩

/-- When one path is a prefix of another, it is their longest common
prefix. -/
theorem lcp2_eq_self (x y : PPath) (h : x <+: y) : lcp2 x y = x :=
  (lcp2_prefix_left x y).eq_of_length_le
    (prefix_lcp2 x x y List.prefix_rfl h).length_le

/-- Prefixes of a singleton path are the empty path or the path itself. -/
theorem prefix_single_cases (q : PPath) (a : PComp) (h : q <+: [a]) :
    q = [] ∨ q = [a] := by
  cases q with
  | nil => exact Or.inl rfl
  | cons c t =>
    obtain ⟨rfl, ht⟩ := List.cons_prefix_cons.mp h
    rw [List.prefix_nil] at ht
    exact Or.inr (by rw [ht])

/-- The paths with no parent are exactly the root path and the empty path. -/
theorem parentIsNone_iff (p : PPath) :
    parentIsNone p = true ↔ p = [] ∨ p = [PComp.rootDir] := by
  rcases p with _ | ⟨a, _ | ⟨b, t⟩⟩
  · simp [parentIsNone]
  · cases a <;> simp [parentIsNone]
  · simp [parentIsNone]

/-- Being short of the root is having a parent. -/
theorem shortOfRoot_iff (p : PPath) : shortOfRoot p ↔ parentIsNone p = false := by
  rw [shortOfRoot, Bool.eq_false_iff]
  constructor
  · intro h hc
    rcases (parentIsNone_iff p).mp hc with h1 | h1
    · exact h.1 h1
    · exact h.2 h1
  · intro h
    constructor
    · intro h1
      exact h ((parentIsNone_iff p).mpr (Or.inl h1))
    · intro h1
      exact h ((parentIsNone_iff p).mpr (Or.inr h1))

/-- Having a parent is preserved by extending a path downward. -/
theorem parentIsNone_mono (q r : PPath) (h : parentIsNone q = false)
    (hpre : q <+: r) : parentIsNone r = false := by
  rw [Bool.eq_false_iff] at h ⊢
  intro hc
  apply h
  rcases (parentIsNone_iff r).mp hc with rfl | rfl
  · rw [List.prefix_nil] at hpre
    exact (parentIsNone_iff q).mpr (Or.inl hpre)
  · exact (parentIsNone_iff q).mpr ((prefix_single_cases q _ hpre).imp id id)

/-- Dropping the last component does not change the longest common prefix
with a path one is not a prefix of. -/
theorem lcp2_dropLast (s p : PPath) (h : ¬ s <+: p) :
    lcp2 s.dropLast p = lcp2 s p := by
  have h1 : lcp2 s p ≠ s := fun hc => h (hc ▸ lcp2_prefix_right s p)
  have h2 : (lcp2 s p).length < s.length :=
    Nat.lt_of_le_of_ne (lcp2_prefix_left s p).length_le
      fun hc => h1 ((lcp2_prefix_left s p).eq_of_length (by rw [hc]))
  have h3 : lcp2 s p <+: s.dropLast :=
    List.prefix_of_prefix_length_le (lcp2_prefix_left s p)
      (List.dropLast_prefix s) (by rw [List.length_dropLast]; omega)
  have h4 : lcp2 s.dropLast p <+: lcp2 s p :=
    prefix_lcp2 _ s p ((lcp2_prefix_left _ p).trans (List.dropLast_prefix s))
      (lcp2_prefix_right _ p)
  have h5 : lcp2 s p <+: lcp2 s.dropLast p := prefix_lcp2 _ _ p h3 (lcp2_prefix_right s p)
  exact h4.eq_of_length_le h5.length_le

/-- Unfolding of the pop loop at its canonical fuel: test the prefix, then
pop once (failing at a parentless path) and continue. -/
theorem popUntil_eq (s p : PPath) :
    popUntil s p =
      if s.isPrefixOf p then some s
      else if parentIsNone s then none
      else if parentIsNone s.dropLast then none
      else popUntil s.dropLast p := by
  cases s with
  | nil => rfl
  | cons a t =>
    show popLoop (t.length + 1) (a :: t) p = _
    rw [popLoop, popUntil]
    have hlen : (a :: t).dropLast.length = t.length := by
      rw [List.length_dropLast, List.length_cons, Nat.add_sub_cancel]
    rw [hlen]

/-- A successful pop loop returns the longest common prefix of its two
arguments. -/
theorem popUntil_some_lcp :
    ∀ (n : ℕ) (s : PPath), s.length ≤ n →
      ∀ (p q : PPath), popUntil s p = some q → q = lcp2 s p := by
  intro n
  induction n with
  | zero =>
    intro s hs p q h
    obtain rfl : s = [] := List.length_eq_zero.mp (Nat.le_zero.mp hs)
    rw [popUntil_eq, if_pos (show ([] : PPath).isPrefixOf p = true by cases p <;> rfl)] at h
    obtain rfl : ([] : PPath) = q := by simpa using h
    cases p <;> rfl
  | succ n ih =>
    intro s hs p q h
    rw [popUntil_eq] at h
    by_cases hpre : s.isPrefixOf p
    · rw [if_pos hpre] at h
      obtain rfl : s = q := by simpa using h
      exact (lcp2_eq_self s p (List.isPrefixOf_iff_prefix.mp hpre)).symm
    · rw [if_neg hpre] at h
      by_cases h1 : parentIsNone s
      · rw [if_pos h1] at h
        exact absurd h (by simp)
      · rw [if_neg h1] at h
        by_cases h2 : parentIsNone s.dropLast
        · rw [if_pos h2] at h
          exact absurd h (by simp)
        · rw [if_neg h2] at h
          have hne : s ≠ [] := fun hc => h1 (by rw [hc]; rfl)
          have hlen : s.dropLast.length ≤ n := by
            rw [List.length_dropLast]
            have h3 : 0 < s.length := List.length_pos.mpr hne
            omega
          rw [ih s.dropLast hlen p q h,
            lcp2_dropLast s p fun hc => hpre (List.isPrefixOf_iff_prefix.mpr hc)]

/-- A successful pop loop either returns its starting path unchanged or a
path that still has a parent. -/
theorem popUntil_some_shape :
    ∀ (n : ℕ) (s : PPath), s.length ≤ n →
      ∀ (p q : PPath), popUntil s p = some q →
        q = s ∨ parentIsNone q = false := by
  intro n
  induction n with
  | zero =>
    intro s hs p q h
    obtain rfl : s = [] := List.length_eq_zero.mp (Nat.le_zero.mp hs)
    rw [popUntil_eq, if_pos (show ([] : PPath).isPrefixOf p = true by cases p <;> rfl)] at h
    obtain rfl : ([] : PPath) = q := by simpa using h
    exact Or.inl rfl
  | succ n ih =>
    intro s hs p q h
    rw [popUntil_eq] at h
    by_cases hpre : s.isPrefixOf p
    · rw [if_pos hpre] at h
      exact Or.inl (by simpa using h.symm)
    · rw [if_neg hpre] at h
      by_cases h1 : parentIsNone s
      · rw [if_pos h1] at h
        exact absurd h (by simp)
      · rw [if_neg h1] at h
        by_cases h2 : parentIsNone s.dropLast
        · rw [if_pos h2] at h
          exact absurd h (by simp)
        · rw [if_neg h2] at h
          have hne : s ≠ [] := fun hc => h1 (by rw [hc]; rfl)
          have hlen : s.dropLast.length ≤ n := by
            rw [List.length_dropLast]
            have h3 : 0 < s.length := List.length_pos.mpr hne
            omega
          rcases ih s.dropLast hlen p q h with rfl | hq
          · exact Or.inr (by simpa using h2)
          · exact Or.inr hq

/-- When the longest common prefix still has a parent, the pop loop reaches
it and succeeds. -/
theorem popUntil_of_short :
    ∀ (n : ℕ) (s : PPath), s.length ≤ n →
      ∀ p : PPath, parentIsNone (lcp2 s p) = false →
        popUntil s p = some (lcp2 s p) := by
  intro n
  induction n with
  | zero =>
    intro s hs p hshort
    obtain rfl : s = [] := List.length_eq_zero.mp (Nat.le_zero.mp hs)
    rw [show lcp2 [] p = [] by cases p <;> rfl] at hshort
    exact absurd hshort (by simp [parentIsNone])
  | succ n ih =>
    intro s hs p hshort
    rw [popUntil_eq]
    by_cases hpre : s.isPrefixOf p
    · rw [if_pos hpre, lcp2_eq_self s p (List.isPrefixOf_iff_prefix.mp hpre)]
    · have hnpre : ¬ s <+: p := fun hc => hpre (List.isPrefixOf_iff_prefix.mpr hc)
      have heq : lcp2 s.dropLast p = lcp2 s p := lcp2_dropLast s p hnpre
      have h1 : parentIsNone s = false :=
        parentIsNone_mono _ s hshort (lcp2_prefix_left s p)
      have h2 : parentIsNone s.dropLast = false :=
        parentIsNone_mono _ _ hshort (heq ▸ lcp2_prefix_left s.dropLast p)
      rw [if_neg hpre, if_neg (by simp [h1]), if_neg (by simp [h2])]
      have hne : s ≠ [] := by
        intro hc
        rw [hc] at h1
        exact absurd h1 (by simp [parentIsNone])
      have hlen : s.dropLast.length ≤ n := by
        rw [List.length_dropLast]
        have h3 : 0 < s.length := List.length_pos.mpr hne
        omega
      rw [ih s.dropLast hlen p (by rw [heq]; exact hshort), heq]

/-- Folding the longest common prefix over a list only shortens the
accumulator. -/
theorem foldl_lcp2_prefix_acc :
    ∀ (l : List PPath) (acc : PPath), l.foldl lcp2 acc <+: acc := by
  intro l
  induction l with
  | nil => intro acc; exact List.prefix_rfl
  | cons x xs ih =>
    intro acc
    rw [List.foldl_cons]
    exact (ih (lcp2 acc x)).trans (lcp2_prefix_left acc x)

/-- A successful outer loop of `common_prefix` computes the fold of the
longest common prefix over the remaining paths. -/
theorem commonGo_some :
    ∀ (rows : List ScoredPath) (s q : PPath), commonGo s rows = some q →
      q = (rows.map fun r => r.path).foldl lcp2 s := by
  intro rows
  induction rows with
  | nil =>
    intro s q h
    rw [commonGo] at h
    simpa using h.symm
  | cons r rest ih =>
    intro s q h
    rw [commonGo] at h
    rcases hp : popUntil s r.path with _ | s1
    · rw [hp] at h
      exact absurd h (by simp)
    · rw [hp] at h
      rw [ih s1 q h, popUntil_some_lcp s.length s le_rfl r.path s1 hp]
      simp

/-- A successful outer loop returns the first path unchanged or a path that
still has a parent. -/
theorem commonGo_shape :
    ∀ (rows : List ScoredPath) (s q : PPath), commonGo s rows = some q →
      q = s ∨ parentIsNone q = false := by
  intro rows
  induction rows with
  | nil =>
    intro s q h
    rw [commonGo] at h
    exact Or.inl (by simpa using h.symm)
  | cons r rest ih =>
    intro s q h
    rw [commonGo] at h
    rcases hp : popUntil s r.path with _ | s1
    · rw [hp] at h
      exact absurd h (by simp)
    · rw [hp] at h
      rcases ih s1 q h with rfl | hq
      · rcases popUntil_some_shape s.length s le_rfl r.path q hp with rfl | hq'
        · exact Or.inl rfl
        · exact Or.inr hq'
      · exact Or.inr hq

/-- When the overall longest common prefix still has a parent, the outer
loop succeeds and returns it. -/
theorem commonGo_of_short :
    ∀ (rows : List ScoredPath) (s : PPath),
      parentIsNone ((rows.map fun r => r.path).foldl lcp2 s) = false →
      commonGo s rows = some ((rows.map fun r => r.path).foldl lcp2 s) := by
  intro rows
  induction rows with
  | nil =>
    intro s h
    rw [commonGo]
    simp
  | cons r rest ih =>
    intro s h
    have hfold : ((r :: rest).map fun r => r.path).foldl lcp2 s
        = (rest.map fun r => r.path).foldl lcp2 (lcp2 s r.path) := by simp
    rw [hfold] at h ⊢
    have hshort1 : parentIsNone (lcp2 s r.path) = false :=
      parentIsNone_mono _ _ h (foldl_lcp2_prefix_acc _ _)
    rw [commonGo, popUntil_of_short s.length s le_rfl r.path hshort1]
    exact ih (lcp2 s r.path) h

/-- Boosting leaves a list alone when no row carries the target path. -/
theorem boostFirst_not_mem (p : PPath) :
    ∀ rows : List ScoredPath, (∀ r ∈ rows, r.path ≠ p) →
      boostFirst p rows = rows := by
  intro rows
  induction rows with
  | nil => intro _; rfl
  | cons a rest ih =>
    intro h
    rw [boostFirst, if_neg (h a (by simp)), ih fun r hr => h r (by simp [hr])]

/-- Boosting multiplies exactly the first row carrying the target path by
100 and leaves every other row unchanged. -/
theorem boostFirst_split (p : PPath) :
    ∀ (pre : List ScoredPath) (tgt : ScoredPath) (post : List ScoredPath),
      (∀ r ∈ pre, r.path ≠ p) → tgt.path = p →
      boostFirst p (pre ++ tgt :: post)
        = pre ++ ⟨tgt.path, tgt.score * 100⟩ :: post := by
  intro pre
  induction pre with
  | nil =>
    intro tgt post _ htgt
    simp [boostFirst, htgt]
  | cons a pre' ih =>
    intro tgt post hpre htgt
    rw [List.cons_append, boostFirst, if_neg (hpre a (by simp)),
      ih tgt post (fun r hr => hpre r (by simp [hr])) htgt, List.cons_append]

/-- Claim C3 (amended with the root-as-first-match exception): with at most
one match, or when `common_prefix` computes nothing, or when the computed
prefix is no match's path, the boost pass changes nothing; a computed prefix
is always the deepest common ancestor of all matched paths and is short of
the filesystem root unless it is the first match's own (root or empty) path;
whenever the deepest common ancestor is short of the root it is computed,
and when it equals the path of a matched entry exactly the first such
entry's score is multiplied by 100, every other score unchanged. -/
theorem claimC3_boost :
    (∀ rows : List ScoredPath, rows.length ≤ 1 → applyBoost rows = rows)
  ∧ (∀ rows : List ScoredPath, commonPrefixPath rows = none →
      applyBoost rows = rows)
  ∧ (∀ (rows : List ScoredPath) (p : PPath), commonPrefixPath rows = some p →
      dcaOf (matchPaths rows) = some p
      ∧ (shortOfRoot p ∨ ∃ r rest, rows = r :: rest ∧ r.path = p))
  ∧ (∀ (rows : List ScoredPath) (p : PPath), 2 ≤ rows.length →
      dcaOf (matchPaths rows) = some p → shortOfRoot p →
      commonPrefixPath rows = some p)
  ∧ (∀ (rows : List ScoredPath) (p : PPath), commonPrefixPath rows = some p →
      (∀ r ∈ rows, r.path ≠ p) → applyBoost rows = rows)
  ∧ (∀ (rows : List ScoredPath) (p : PPath) (pre : List ScoredPath)
      (tgt : ScoredPath) (post : List ScoredPath),
      commonPrefixPath rows = some p → rows = pre ++ tgt :: post →
      tgt.path = p → (∀ r ∈ pre, r.path ≠ p) →
      applyBoost rows = pre ++ ⟨tgt.path, tgt.score * 100⟩ :: post) := by
  refine ⟨?_, ?_, ?_, ?_, ?_, ?_⟩
  · intro rows hlen
    rcases rows with _ | ⟨r0, _ | ⟨r1, rest⟩⟩
    · rfl
    · rfl
    · simp at hlen
  · intro rows h
    rw [applyBoost, h]
  · intro rows p h
    rcases rows with _ | ⟨r0, _ | ⟨r1, rest⟩⟩
    · exact absurd h (by simp [commonPrefixPath])
    · exact absurd h (by simp [commonPrefixPath])
    · have hgo : commonGo r0.path (r1 :: rest) = some p := h
      constructor
      · have hval := commonGo_some (r1 :: rest) r0.path p hgo
        simp only [dcaOf, matchPaths, List.map_cons]
        rw [hval, List.map_cons]
      · rcases commonGo_shape (r1 :: rest) r0.path p hgo with rfl | hq
        · exact Or.inr ⟨r0, r1 :: rest, rfl, rfl⟩
        · exact Or.inl ((shortOfRoot_iff p).mpr hq)
  · intro rows p hlen hdca hshort
    rcases rows with _ | ⟨r0, _ | ⟨r1, rest⟩⟩
    · simp at hlen
    · simp at hlen
    · simp only [dcaOf, matchPaths, List.map_cons, Option.some.injEq] at hdca
      show commonGo r0.path (r1 :: rest) = some p
      have hfold : ((r1 :: rest).map fun r => r.path).foldl lcp2 r0.path = p := by
        rw [List.map_cons]
        exact hdca
      rw [← hfold]
      exact commonGo_of_short (r1 :: rest) r0.path
        (by rw [hfold]; exact (shortOfRoot_iff p).mp hshort)
  · intro rows p h hnone
    rw [applyBoost, h]
    exact boostFirst_not_mem p rows hnone
  · intro rows p pre tgt post h hrows htgt hpre
    subst hrows
    rw [applyBoost, h]
    exact boostFirst_split p pre tgt post hpre htgt

/-- Witness for C3's theorem: a two-row table whose first row is the common
ancestor of both; its score is multiplied by 100 in place. -/
theorem claimC3_boost_witness :
    applyBoost [⟨[PComp.rootDir, PComp.normal [97]], 1⟩,
        ⟨[PComp.rootDir, PComp.normal [97], PComp.normal [98]], 2⟩]
      = [⟨[PComp.rootDir, PComp.normal [97]], (1 : ℚ) * 100⟩,
        ⟨[PComp.rootDir, PComp.normal [97], PComp.normal [98]], 2⟩] :=
  claimC3_boost.2.2.2.2.2 _ [PComp.rootDir, PComp.normal [97]] []
    ⟨[PComp.rootDir, PComp.normal [97]], 1⟩
    [⟨[PComp.rootDir, PComp.normal [97], PComp.normal [98]], 2⟩]
    (by decide) rfl rfl (by simp)

/-- Counterexample to C3 as frozen: for the matches `/` and `/h` the deepest
common ancestor is the root itself, so no common ancestor short of the root
exists and the claim says no score changes; but because the root is the
first match, `common_prefix` returns it and the boost fires. -/
theorem claimC3_root_cx :
    dcaOf (matchPaths [⟨[PComp.rootDir], 1⟩,
        ⟨[PComp.rootDir, PComp.normal [104]], 1⟩]) = some [PComp.rootDir]
  ∧ ¬ shortOfRoot [PComp.rootDir]
  ∧ applyBoost [⟨[PComp.rootDir], 1⟩, ⟨[PComp.rootDir, PComp.normal [104]], 1⟩]
      ≠ [⟨[PComp.rootDir], 1⟩, ⟨[PComp.rootDir, PComp.normal [104]], 1⟩] := by
  refine ⟨by decide, by simp [shortOfRoot], ?_⟩
  have hcp : commonPrefixPath [(⟨[PComp.rootDir], 1⟩ : ScoredPath),
      ⟨[PComp.rootDir, PComp.normal [104]], 1⟩] = some [PComp.rootDir] := by
    decide
  intro hc
  have heq : boostFirst [PComp.rootDir]
      [(⟨[PComp.rootDir], 1⟩ : ScoredPath), ⟨[PComp.rootDir, PComp.normal [104]], 1⟩]
      = [⟨[PComp.rootDir], (1 : ℚ) * 100⟩, ⟨[PComp.rootDir, PComp.normal [104]], 1⟩] := by
    simpa using boostFirst_split [PComp.rootDir] [] ⟨[PComp.rootDir], 1⟩
      [⟨[PComp.rootDir, PComp.normal [104]], 1⟩] (by simp) rfl
  simp only [applyBoost, hcp, heq] at hc
  injection hc with h1 h2
  have hs : (1 : ℚ) * 100 = 1 := congrArg ScoredPath.score h1
  norm_num at hs

/-- Definition of the finite `f32` values the round-trip claim quantifies
over: dyadic rationals with exponent at least `-149` (so `q * 2 ^ 149` is an
integer) and magnitude at most `f32Max`.  Every finite `f32` value satisfies
this. -/
def isF32Value (q : ℚ) : Prop := (q * 2 ^ 149).den = 1 ∧ |q| ≤ f32Max

/-- Appending one digit multiplies the accumulated value by ten. -/
theorem digitsVal_append_single (A : List Nat) (d : Nat) :
    digitsVal (A ++ [d]) = 10 * digitsVal A + (d - 48) := by
  rw [digitsVal, List.foldl_append]
  rfl

/-- Every byte `digitsLoop` emits is an ASCII digit. -/
theorem digitsLoop_digit_bounds :
    ∀ (f n : ℕ), ∀ b ∈ digitsLoop f n, 48 ≤ b ∧ b ≤ 57 := by
  intro f
  induction f with
  | zero => intro n b hb; simp [digitsLoop] at hb
  | succ f ih =>
    intro n b hb
    match n with
    | 0 => simp [digitsLoop] at hb
    | m + 1 =>
      rw [digitsLoop] at hb
      rcases List.mem_cons.mp hb with rfl | hb'
      · have h10 : (m + 1) % 10 < 10 := Nat.mod_lt _ (by norm_num)
        omega
      · exact ih _ b hb'

/-- Reading the emitted digits back recovers the number. -/
theorem digitsVal_digitsLoop :
    ∀ (f n : ℕ), n ≤ f → digitsVal ((digitsLoop f n).reverse) = n := by
  intro f
  induction f with
  | zero =>
    intro n hn
    obtain rfl : n = 0 := Nat.le_zero.mp hn
    rfl
  | succ f ih =>
    intro n hn
    match n with
    | 0 => rfl
    | m + 1 =>
      have hd : (m + 1) / 10 < m + 1 := Nat.div_lt_self (Nat.succ_pos m) (by norm_num)
      rw [digitsLoop, List.reverse_cons, digitsVal_append_single,
        ih ((m + 1) / 10) (by omega)]
      have hmod := Nat.div_add_mod (m + 1) 10
      omega

/-- A number below `10 ^ k` has at most `k` digits. -/
theorem digitsLoop_length :
    ∀ (f n k : ℕ), n < 10 ^ k → (digitsLoop f n).length ≤ k := by
  intro f
  induction f with
  | zero => intro n k _; simp [digitsLoop]
  | succ f ih =>
    intro n k hn
    match n with
    | 0 => simp [digitsLoop]
    | m + 1 =>
      rw [digitsLoop, List.length_cons]
      have hk : k ≠ 0 := by
        intro hzero
        rw [hzero, pow_zero] at hn
        omega
      obtain ⟨k', rfl⟩ : ∃ k', k = k' + 1 := ⟨k - 1, by omega⟩
      have hdiv : (m + 1) / 10 < 10 ^ k' := by
        apply Nat.div_lt_of_lt_mul
        rw [pow_succ] at hn
        omega
      exact Nat.succ_le_succ (ih _ k' hdiv)

/-- Every byte of a rendered `u64` is an ASCII digit. -/
theorem fmtNat_digit_bounds (n : ℕ) : ∀ b ∈ fmtNat n, 48 ≤ b ∧ b ≤ 57 := by
  intro b hb
  rw [fmtNat] at hb
  split at hb
  · simp at hb
    omega
  · rw [List.mem_reverse] at hb
    exact digitsLoop_digit_bounds n n b hb

/-- Reading a rendered `u64` back recovers its value. -/
theorem digitsVal_fmtNat (n : ℕ) : digitsVal (fmtNat n) = n := by
  rw [fmtNat]
  split
  · next h => rw [h]; rfl
  · exact digitsVal_digitsLoop n n le_rfl

/-- A rendered `u64` is never empty. -/
theorem fmtNat_ne_nil (n : ℕ) : fmtNat n ≠ [] := by
  rw [fmtNat]
  split
  · simp
  · next h =>
    cases n with
    | zero => exact absurd rfl h
    | succ m =>
      rw [digitsLoop]
      simp

/-- A rendered `u64` starts with an ASCII digit. -/
theorem head_digit_of_fmtNat (n : ℕ) :
    ∃ d rest, fmtNat n = d :: rest ∧ 48 ≤ d ∧ d ≤ 57 := by
  obtain ⟨d, rest, h⟩ := List.exists_cons_of_ne_nil (fmtNat_ne_nil n)
  have hb := fmtNat_digit_bounds n d (by rw [h]; simp)
  exact ⟨d, rest, h, hb.1, hb.2⟩

/-- Parsing a rendered `u64` back succeeds with the same value. -/
theorem parseNatAscii_fmtNat (n : ℕ) (hn : n < 2 ^ 64) :
    parseNatAscii (fmtNat n) = some n := by
  obtain ⟨d, rest, hcons, hd1, hd2⟩ := head_digit_of_fmtNat n
  have hh : ¬ (fmtNat n).head? = some 43 := by
    rw [hcons]
    simp
    omega
  have hall : (fmtNat n).all isDigitByte = true := by
    rw [List.all_eq_true]
    intro b hb
    have := fmtNat_digit_bounds n b hb
    simp [isDigitByte]
    omega
  simp only [parseNatAscii]
  rw [if_neg hh, if_pos ⟨fmtNat_ne_nil n, hall⟩, digitsVal_fmtNat, if_pos hn]

/-- Splitting at the first delimiter occurrence separates the clean head
from the rest. -/
theorem splitByte_sep (c : Nat) :
    ∀ (x y : List Nat), c ∉ x →
      splitByte c (x ++ c :: y) = x :: splitByte c y := by
  intro x
  induction x with
  | nil =>
    intro y _
    rw [List.nil_append, splitByte, if_pos rfl]
  | cons a x' ih =>
    intro y hc
    have ha : ¬ a = c := fun h => hc (by rw [← h]; exact List.mem_cons_self a x')
    rw [List.cons_append, splitByte, if_neg ha,
      ih y fun h => hc (List.mem_cons_of_mem a h)]

/-- A delimiter-free byte string splits into a single field. -/
theorem splitByte_clean (c : Nat) :
    ∀ x : List Nat, c ∉ x → splitByte c x = [x] := by
  intro x
  induction x with
  | nil => intro _; rfl
  | cons a x' ih =>
    intro hc
    rw [splitByte,
      if_neg (fun h => hc (by rw [← h]; exact List.mem_cons_self a x')),
      ih fun h => hc (List.mem_cons_of_mem a h)]

/-- Every byte of the padded fraction is an ASCII digit. -/
theorem fracDigitsPadded_digit_bounds (m : ℕ) :
    ∀ b ∈ fracDigitsPadded m, 48 ≤ b ∧ b ≤ 57 := by
  intro b hb
  simp only [fracDigitsPadded, List.mem_append] at hb
  rcases hb with hb' | hb'
  · have h48 := List.eq_of_mem_replicate hb'
    omega
  · rw [List.mem_reverse] at hb'
    exact digitsLoop_digit_bounds m m b hb'

/-- The padded fraction of a number below `10 ^ 149` has exactly 149
digits. -/
theorem fracDigitsPadded_length (m : ℕ) (hm : m < 10 ^ 149) :
    (fracDigitsPadded m).length = 149 := by
  have hlen : (digitsLoop m m).length ≤ 149 := digitsLoop_length m m 149 hm
  simp only [fracDigitsPadded, List.length_append, List.length_replicate,
    List.length_reverse]
  omega

/-- Leading zero digits do not change the value. -/
theorem digitsVal_replicate48 (k : ℕ) (l : List Nat) :
    digitsVal (List.replicate k 48 ++ l) = digitsVal l := by
  induction k with
  | zero => rfl
  | succ k ih =>
    rw [List.replicate_succ, List.cons_append]
    show List.foldl (fun a d => 10 * a + (d - 48)) (10 * 0 + (48 - 48))
      (List.replicate k 48 ++ l) = digitsVal l
    exact ih

/-- Reading the padded fraction back recovers the number. -/
theorem digitsVal_fracDigitsPadded (m : ℕ) :
    digitsVal (fracDigitsPadded m) = m := by
  simp only [fracDigitsPadded]
  rw [digitsVal_replicate48]
  exact digitsVal_digitsLoop m m le_rfl

/-- The decimal mantissa `I.F` rendered for a numerator `a` parses back to
exactly `a / 10 ^ 149`. -/
theorem parseMantVal_mant (a : ℕ) :
    parseMantVal (fmtNat (a / 10 ^ 149) ++ 46 :: fracDigitsPadded (a % 10 ^ 149))
      = some ((a : ℚ) / 10 ^ 149) := by
  have hmod : a % 10 ^ 149 < 10 ^ 149 := Nat.mod_lt _ (by positivity)
  have h46i : (46 : ℕ) ∉ fmtNat (a / 10 ^ 149) := by
    intro hc
    have := fmtNat_digit_bounds _ 46 hc
    omega
  have h46f : (46 : ℕ) ∉ fracDigitsPadded (a % 10 ^ 149) := by
    intro hc
    have := fracDigitsPadded_digit_bounds _ 46 hc
    omega
  have hsplit : splitByte 46
      (fmtNat (a / 10 ^ 149) ++ 46 :: fracDigitsPadded (a % 10 ^ 149))
      = [fmtNat (a / 10 ^ 149), fracDigitsPadded (a % 10 ^ 149)] := by
    rw [splitByte_sep 46 _ _ h46i, splitByte_clean 46 _ h46f]
  have halli : (fmtNat (a / 10 ^ 149)).all isDigitByte = true := by
    rw [List.all_eq_true]
    intro b hb
    have := fmtNat_digit_bounds _ b hb
    simp only [isDigitByte, decide_eq_true_eq]
    omega
  have hallf : (fracDigitsPadded (a % 10 ^ 149)).all isDigitByte = true := by
    rw [List.all_eq_true]
    intro b hb
    have := fracDigitsPadded_digit_bounds _ b hb
    simp only [isDigitByte, decide_eq_true_eq]
    omega
  simp only [parseMantVal, hsplit]
  rw [if_pos ⟨Or.inl (fmtNat_ne_nil _), halli, hallf⟩,
    digitsVal_fmtNat, digitsVal_fracDigitsPadded, fracDigitsPadded_length _ hmod]
  congr 1
  have hdm : 10 ^ 149 * (a / 10 ^ 149) + a % 10 ^ 149 = a :=
    Nat.div_add_mod a (10 ^ 149)
  have hcast : ((10 ^ 149 * (a / 10 ^ 149) + a % 10 ^ 149 : ℕ) : ℚ) = (a : ℚ) := by
    exact_mod_cast congrArg (fun n : ℕ => (n : ℚ)) hdm
  push_cast at hcast
  field_simp
  linarith

/-- Lower-casing does not move bytes below `'A'`. -/
theorem map_asciiLower_id (l : List Nat) (h : ∀ b ∈ l, b < 65) :
    l.map asciiLower = l := by
  induction l with
  | nil => rfl
  | cons a t ih =>
    rw [List.map_cons, ih fun b hb => h b (List.mem_cons_of_mem a hb)]
    congr 1
    rw [asciiLower, if_neg]
    intro hc
    have := h a (List.mem_cons_self a t)
    omega

/-- Every byte of a rendered mantissa is the dot or a digit. -/
theorem mant_bytes (a : ℕ) :
    ∀ b ∈ fmtNat (a / 10 ^ 149) ++ 46 :: fracDigitsPadded (a % 10 ^ 149),
      b = 46 ∨ (48 ≤ b ∧ b ≤ 57) := by
  intro b hb
  rcases List.mem_append.mp hb with hb' | hb'
  · exact Or.inr (fmtNat_digit_bounds _ b hb')
  · rcases List.mem_cons.mp hb' with rfl | hb''
    · exact Or.inl rfl
    · exact Or.inr (fracDigitsPadded_digit_bounds _ b hb'')

/-- Every byte of a rendered rank is the sign, the dot or a digit. -/
theorem fmtRank_bytes (q : ℚ) :
    ∀ b ∈ fmtRank q, b = 45 ∨ b = 46 ∨ (48 ≤ b ∧ b ≤ 57) := by
  intro b hb
  simp only [fmtRank, List.mem_append, List.mem_cons] at hb
  rcases hb with (hb | hb) | rfl | hb
  · split at hb
    · rw [List.mem_singleton] at hb
      exact Or.inl hb
    · simp at hb
  · exact Or.inr (Or.inr (fmtNat_digit_bounds _ b hb))
  · exact Or.inr (Or.inl rfl)
  · exact Or.inr (Or.inr (fracDigitsPadded_digit_bounds _ b hb))

/-- Evaluation of the `f32` parser on an unsigned dot-and-digits string:
no special form matches, no exponent is present, and the mantissa value is
returned through the overflow classification. -/
theorem parseF32_digits_dot (l : List Nat) (v : ℚ)
    (hbytes : ∀ b ∈ l, b = 46 ∨ (48 ≤ b ∧ b ≤ 57))
    (d : Nat) (rest : List Nat) (hcons : l = d :: rest)
    (hd1 : 48 ≤ d) (hd2 : d ≤ 57)
    (hmant : parseMantVal l = some v) :
    parseF32 l = some (fromFinite v) := by
  have hlt65 : ∀ b ∈ l, b < 65 := by
    intro b hb
    rcases hbytes b hb with rfl | hb' <;> omega
  have h43 : ¬ l.head? = some 43 := by
    rw [hcons]
    simp
    omega
  have h45 : ¬ l.head? = some 45 := by
    rw [hcons]
    simp
    omega
  have hid : l.map asciiLower = l := map_asciiLower_id l hlt65
  have hpred : ∀ b ∈ l, (fun b => decide (b ≠ 101 ∧ b ≠ 69)) b = true := by
    intro b hb
    simp only [decide_eq_true_eq, ne_eq]
    rcases hbytes b hb with rfl | hb' <;> omega
  have hinf : ¬ (l = [105, 110, 102] ∨ l = [105, 110, 102, 105, 110, 105, 116, 121]) := by
    rintro (hc | hc) <;> (rw [hcons] at hc; injection hc with h1 _; omega)
  have hnan : ¬ l = [110, 97, 110] := by
    intro hc
    rw [hcons] at hc
    injection hc with h1 _
    omega
  simp only [parseF32]
  rw [if_neg (not_or.mpr ⟨h43, h45⟩), if_neg h45, hid, if_neg hinf, if_neg hnan,
    List.takeWhile_eq_self_iff.mpr hpred, List.dropWhile_eq_nil_iff.mpr hpred]
  simp [hmant]

/-- Evaluation of the `f32` parser on a negative-signed dot-and-digits
string. -/
theorem parseF32_digits_dot_neg (l : List Nat) (v : ℚ)
    (hbytes : ∀ b ∈ l, b = 46 ∨ (48 ≤ b ∧ b ≤ 57))
    (d : Nat) (rest : List Nat) (hcons : l = d :: rest)
    (hd1 : 48 ≤ d) (hd2 : d ≤ 57)
    (hmant : parseMantVal l = some v) :
    parseF32 (45 :: l) = some (fromFinite (-v)) := by
  have hlt65 : ∀ b ∈ l, b < 65 := by
    intro b hb
    rcases hbytes b hb with rfl | hb' <;> omega
  have h45 : (45 :: l).head? = some 45 := rfl
  have hid : l.map asciiLower = l := map_asciiLower_id l hlt65
  have hpred : ∀ b ∈ l, (fun b => decide (b ≠ 101 ∧ b ≠ 69)) b = true := by
    intro b hb
    simp only [decide_eq_true_eq, ne_eq]
    rcases hbytes b hb with rfl | hb' <;> omega
  have hinf : ¬ (l = [105, 110, 102] ∨ l = [105, 110, 102, 105, 110, 105, 116, 121]) := by
    rintro (hc | hc) <;> (rw [hcons] at hc; injection hc with h1 _; omega)
  have hnan : ¬ l = [110, 97, 110] := by
    intro hc
    rw [hcons] at hc
    injection hc with h1 _
    omega
  simp only [parseF32]
  rw [if_pos (Or.inr h45), if_pos h45, List.tail_cons, hid, if_neg hinf,
    if_neg hnan, List.takeWhile_eq_self_iff.mpr hpred,
    List.dropWhile_eq_nil_iff.mpr hpred]
  simp [hmant]

/-- Parsing a rendered `f32` rank recovers the same finite value. -/
theorem parseF32_fmtRank (q : ℚ) (hq : isF32Value q) :
    parseF32 (fmtRank q) = some (FVal.fin q) := by
  have hnum : ((q * 2 ^ 149).num : ℚ) = q * 2 ^ 149 := by
    calc ((q * 2 ^ 149).num : ℚ)
        = ((q * 2 ^ 149).num : ℚ) / ((q * 2 ^ 149).den : ℚ) := by
          rw [hq.1]
          norm_num
      _ = q * 2 ^ 149 := Rat.num_div_den _
  have hten : ((10 : ℚ) ^ 149) = 2 ^ 149 * 5 ^ 149 := by
    rw [← mul_pow]
    norm_num
  have hfin : fromFinite q = FVal.fin q := by
    rw [fromFinite, if_pos]
    have h2 := hq.2
    rw [f32Max] at h2
    have hlt : (2 : ℚ) ^ 128 - 2 ^ 104 < 2 ^ 128 - 2 ^ 103 := by norm_num
    linarith
  obtain ⟨d, rest, hcons, hd1, hd2⟩ :=
    head_digit_of_fmtNat (((q * 2 ^ 149).num * 5 ^ 149).natAbs / 10 ^ 149)
  have hcons' : fmtNat (((q * 2 ^ 149).num * 5 ^ 149).natAbs / 10 ^ 149) ++
      46 :: fracDigitsPadded (((q * 2 ^ 149).num * 5 ^ 149).natAbs % 10 ^ 149)
      = d :: (rest ++
        46 :: fracDigitsPadded (((q * 2 ^ 149).num * 5 ^ 149).natAbs % 10 ^ 149)) := by
    rw [hcons, List.cons_append]
  by_cases hneg : q < 0
  · have hx : (q * 2 ^ 149).num * 5 ^ 149 ≤ 0 :=
      mul_nonpos_iff.mpr (Or.inr ⟨Rat.num_nonpos.mpr
        (mul_nonpos_iff.mpr (Or.inr ⟨le_of_lt hneg, by positivity⟩)), by positivity⟩)
    have hvalneg : ((((q * 2 ^ 149).num * 5 ^ 149).natAbs : ℕ) : ℚ) / 10 ^ 149
        = -q := by
      rw [Int.cast_natAbs, abs_of_nonpos hx, Int.cast_neg, Int.cast_mul,
        show ((5 ^ 149 : ℤ) : ℚ) = 5 ^ 149 by norm_cast, hnum,
        div_eq_iff (show ((10 : ℚ) ^ 149) ≠ 0 by positivity), hten]
      ring
    simp only [fmtRank, if_pos hneg, List.cons_append, List.nil_append]
    rw [parseF32_digits_dot_neg _ _ (mant_bytes _) d _ hcons' hd1 hd2
      (parseMantVal_mant _), hvalneg, neg_neg, hfin]
  · have hx : (0 : ℤ) ≤ (q * 2 ^ 149).num * 5 ^ 149 :=
      mul_nonneg (Rat.num_nonneg.mpr (mul_nonneg (not_lt.mp hneg) (by positivity)))
        (by positivity)
    have hvalpos : ((((q * 2 ^ 149).num * 5 ^ 149).natAbs : ℕ) : ℚ) / 10 ^ 149
        = q := by
      rw [Int.cast_natAbs, abs_of_nonneg hx, Int.cast_mul,
        show ((5 ^ 149 : ℤ) : ℚ) = 5 ^ 149 by norm_cast, hnum,
        div_eq_iff (show ((10 : ℚ) ^ 149) ≠ 0 by positivity), hten]
      ring
    simp only [fmtRank, if_neg hneg, List.nil_append]
    rw [parseF32_digits_dot _ _ (mant_bytes _) d _ hcons' hd1 hd2
      (parseMantVal_mant _), hvalpos, hfin]

/-- Claim C7: encoding an entry whose path is free of the delimiter and of
newlines and whose rank is a finite `f32` to a `path|rank|time` line, then
decoding that line, reproduces the path, rank and time exactly. -/
theorem claimC7_roundtrip (path : List Nat) (q : ℚ) (t : ℕ)
    (hbar : 124 ∉ path) (hnl : 10 ∉ path) (hq : isF32Value q)
    (ht : t < 2 ^ 64) :
    to_row (encodeLine ⟨path, q, t⟩) = some ⟨path, q, t⟩ := by
  have hfr124 : (124 : ℕ) ∉ fmtRank q := by
    intro hc
    rcases fmtRank_bytes q 124 hc with h | h | h <;> omega
  have hfn124 : (124 : ℕ) ∉ fmtNat t := by
    intro hc
    have := fmtNat_digit_bounds t 124 hc
    omega
  have hsplit : splitByte 124 (encodeLine ⟨path, q, t⟩)
      = [path, fmtRank q, fmtNat t] := by
    rw [encodeLine]
    rw [splitByte_sep 124 path _ hbar, splitByte_sep 124 _ _ hfr124,
      splitByte_clean 124 _ hfn124]
  simp only [to_row, hsplit, parseF32_fmtRank q hq, parseNatAscii_fmtNat t ht]

/-- Witness for C7 at the path `/h`, rank `5/2` and time 42. -/
theorem claimC7_roundtrip_witness :
    to_row (encodeLine ⟨[47, 104], 5 / 2, 42⟩) = some ⟨[47, 104], 5 / 2, 42⟩ :=
  claimC7_roundtrip [47, 104] (5 / 2) 42 (by decide) (by decide)
    ⟨by norm_num, by rw [abs_of_nonneg (by norm_num)]; norm_num [f32Max]⟩
    (by norm_num)

